import Mathlib

/-!
Shallow embedding of the Go package `workpool` (files `worker_pool.go`,
`example_test.go`).

The package is a fixed-size worker pool.  A `WorkPool` holds a worker count
(`Workers : int`), a handler (`Handler : func(abort <-chan struct{}) bool`),
an abort channel (`abort chan struct{}`, possibly nil), and an optional
finalizer (`Close func()`, possibly nil).  `Run` lazily allocates the abort
channel, defers `Close`, calls `wg.Add(p.Workers)`, spawns `p.Workers`
goroutines each running a poll/invoke loop, and waits on the wait group.
`Cancel` closes the abort channel.

Modelling choices:
* The abort channel is a three-state value `Option Bool`: `none` is a nil
  channel, `some false` an allocated open channel, `some true` a closed
  channel.  Closing a nil or closed channel is a Go runtime panic, modelled
  by `GoPanic.closeNil` / `GoPanic.closeClosed`.
* `wg.Add` with a delta that drives the counter negative panics
  (`GoPanic.negativeWaitGroup`), faithfully to `sync.WaitGroup`.
* A worker's handler is abstracted by its observable behaviour: a function
  `h : Nat → Option Bool` giving the result of the worker's k-th handler
  invocation (`none` means that invocation panics).  The scheduling of
  `Cancel` relative to a worker's polls is abstracted by
  `observe : Nat → Bool`: `observe j` tells whether the worker's select at
  loop iteration j finds the abort channel closed (a select with a `default`
  branch is a non-blocking poll, and the receive branch is ready exactly
  when the channel is closed, since nothing is ever sent on it).
  Quantifying over all `observe` covers every interleaving.
* Workers and `Run` are given fuel; `none` means the execution has not
  terminated within the fuel, so "Run returns" is `∃ fuel, Run ... = some _`.
* Each worker produces an ordered event trace (`invoke`, the deferred
  `wgDone`, `handlerPanic`); `Run` produces a global trace in which the
  deferred `Close` call (`closeCall`) is appended after the wait barrier,
  exactly as `defer p.Close()` runs after `wg.Wait()` returns.  An
  unrecovered panic inside a worker goroutine crashes the whole program
  before `Run` can return or run deferred calls of the `Run` goroutine;
  this is the `crash` event.
-/

namespace Workpool

/-- Go runtime panics that the pool's code can raise. -/
inductive GoPanic where
  | closeNil
  | closeClosed
  | negativeWaitGroup
deriving DecidableEq, Repr

/-- Events of one worker goroutine, in order of occurrence:
`invoke j` marks that the handler call at loop iteration j began,
`wgDone` that the deferred `wg.Done()` ran as the goroutine ended,
`handlerPanic` that an unrecovered handler panic is propagating. -/
inductive WEvent where
  | invoke (iter : Nat)
  | wgDone
  | handlerPanic
deriving DecidableEq, Repr

/-- Events of a whole `Run`: a tagged worker event, the deferred `Close`
call, a panic propagating out of `Run` itself, or a program crash caused by
an unrecovered panic in a worker goroutine. -/
inductive GEvent where
  | worker (i : Nat) (e : WEvent)
  | closeCall
  | panicOut (e : GoPanic)
  | crash
deriving DecidableEq, Repr

/-- The `WorkPool` struct.  `Handler` is not stored: its behaviour is passed
to `Run` as a function from worker index and call index to the call's
result.  `abort : Option Bool` models the channel (`none` = nil,
`some false` = open, `some true` = closed); `hasClose` models whether the
`Close` field is non-nil. -/
structure WorkPool where
  Workers : Int
  abort : Option Bool
  hasClose : Bool
deriving DecidableEq, Repr

/-- `New` from the source: allocates the abort channel, leaves `Close` nil. -/
def New (numWorkers : Int) : WorkPool :=
  { Workers := numWorkers, abort := some false, hasClose := false }

/-- `NewWithClose` from the source: allocates the abort channel and sets
`Close`. -/
def NewWithClose (numWorkers : Int) : WorkPool :=
  { Workers := numWorkers, abort := some false, hasClose := true }

/-- The zero value of the `WorkPool` struct: zero workers, nil abort
channel, nil `Close`. -/
def zeroValue : WorkPool :=
  { Workers := 0, abort := none, hasClose := false }

/-- `Cancel` from the source: `close(p.abort)`.  Closing a nil channel or an
already-closed channel panics in Go. -/
def WorkPool.Cancel (p : WorkPool) : Except GoPanic WorkPool :=
  match p.abort with
  | none => Except.error GoPanic.closeNil
  | some true => Except.error GoPanic.closeClosed
  | some false => Except.ok { p with abort := some true }

/-- `sync.WaitGroup.Add`: panics when the counter would become negative. -/
def wgAdd (counter delta : Int) : Except GoPanic Int :=
  if counter + delta < 0 then Except.error GoPanic.negativeWaitGroup
  else Except.ok (counter + delta)

/-- The first statement of `Run`: `if p.abort == nil { p.abort = make(...) }`. -/
def ensureAbort (p : WorkPool) : WorkPool :=
  if p.abort = none then { p with abort := some false } else p

/-- The trace of the deferred `Close` call: one `closeCall` event when
`Close` is non-nil, nothing otherwise. -/
def closeTrace (p : WorkPool) : List GEvent :=
  if p.hasClose then [GEvent.closeCall] else []

/-- One worker goroutine, from loop iteration j with the given fuel:

    defer wg.Done()
    for true {
      select {
      case <-p.abort: return
      default:
        foundWork := handler(p.abort)
        if !foundWork { return }
      }
    }

`observe j` is whether the select at iteration j finds the abort channel
closed; `h j` is the result of the handler call made at iteration j
(`none` = the handler panics).  The result is the worker's event trace, or
`none` when the loop has not exited within the fuel. -/
def workerExec (observe : Nat → Bool) (h : Nat → Option Bool) :
    Nat → Nat → Option (List WEvent)
  | _, 0 => none
  | j, fuel + 1 =>
    if observe j then some [WEvent.wgDone]
    else
      match h j with
      | none => some [WEvent.invoke j, WEvent.wgDone, WEvent.handlerPanic]
      | some false => some [WEvent.invoke j, WEvent.wgDone]
      | some true =>
        (workerExec observe h (j + 1) fuel).map
          (fun tr => WEvent.invoke j :: tr)

/-- Tag each worker's trace with its index and concatenate.  This is one
interleaving of the concurrent workers; the theorems below depend only on
membership and counts, which are invariant under interleaving. -/
def tagWorkers (trs : List (List WEvent)) : List GEvent :=
  (trs.enum.map (fun it => it.2.map (GEvent.worker it.1))).flatten

/-- The observable outcome of a terminated `Run`: the pool after the lazy
abort allocation, the global event trace, and the per-worker traces. -/
structure RunOutcome where
  pool : WorkPool
  trace : List GEvent
  workerTraces : List (List WEvent)
deriving DecidableEq, Repr

/-- `Run` from the source.  In order: lazy abort allocation, `defer
p.Close()`, `wg.Add(p.Workers)` (panicking when `Workers` is negative, with
the deferred `Close` running during the unwind), spawning one goroutine per
worker, `wg.Wait()`, and the deferred `Close` after the wait.  `h i`
describes worker i's handler results and `observe i` its poll outcomes;
`none` means `Run` has not returned (a worker is still running). -/
def WorkPool.Run (p : WorkPool) (h : Nat → Nat → Option Bool)
    (observe : Nat → Nat → Bool) (fuel : Nat) : Option RunOutcome :=
  match wgAdd 0 (ensureAbort p).Workers with
  | Except.error e =>
    some ⟨ensureAbort p,
      closeTrace (ensureAbort p) ++ [GEvent.panicOut e], []⟩
  | Except.ok _ =>
    ((List.range (ensureAbort p).Workers.toNat).mapM
        (fun i => workerExec (observe i) (h i) 0 fuel)).map
      (fun trs =>
        if trs.any (fun tr => tr.contains WEvent.handlerPanic) then
          ⟨ensureAbort p, tagWorkers trs ++ [GEvent.crash], trs⟩
        else
          ⟨ensureAbort p, tagWorkers trs ++ closeTrace (ensureAbort p), trs⟩)

/-- Number of handler invocations recorded in a worker trace. -/
def invokeCount (tr : List WEvent) : Nat :=
  tr.countP (fun e => match e with | WEvent.invoke _ => true | _ => false)

/-- Total handler invocations across all workers of a run. -/
def totalInvocations (o : RunOutcome) : Nat :=
  (o.workerTraces.map invokeCount).sum

/-- Fuel monotonicity: a worker trace obtained with some fuel is obtained
with any larger fuel. -/
theorem workerExec_mono (observe : Nat → Bool) (h : Nat → Option Bool) :
    ∀ fuel fuel' j tr, fuel ≤ fuel' →
      workerExec observe h j fuel = some tr →
      workerExec observe h j fuel' = some tr := by
  intro fuel
  induction fuel with
  | zero =>
    intro fuel' j tr _ hrun
    simp [workerExec] at hrun
  | succ n ih =>
    intro fuel' j tr hle hrun
    obtain ⟨m, rfl⟩ : ∃ m, fuel' = m + 1 := ⟨fuel' - 1, by omega⟩
    have hnm : n ≤ m := by omega
    unfold workerExec at hrun ⊢
    by_cases ho : observe j
    · simpa [ho] using hrun
    · rw [if_neg (by simp [ho])] at hrun ⊢
      match hh : h j with
      | none => rw [hh] at hrun; exact hrun
      | some false => rw [hh] at hrun; exact hrun
      | some true =>
        rw [hh] at hrun
        have hrun' : (workerExec observe h (j + 1) n).map
            (fun tr => WEvent.invoke j :: tr) = some tr := hrun
        rw [Option.map_eq_some'] at hrun'
        obtain ⟨tr', h1, rfl⟩ := hrun'
        show (workerExec observe h (j + 1) m).map
            (fun tr => WEvent.invoke j :: tr) = some (WEvent.invoke j :: tr')
        exact Option.map_eq_some'.mpr ⟨tr', ih m (j + 1) tr' hnm h1, rfl⟩

/-- Every terminating worker trace records the deferred `wg.Done` exactly
once, on every exit path (abort observed, handler done, handler panic). -/
theorem workerExec_done_count (observe : Nat → Bool) (h : Nat → Option Bool) :
    ∀ fuel j tr, workerExec observe h j fuel = some tr →
      tr.count WEvent.wgDone = 1 := by
  intro fuel
  induction fuel with
  | zero =>
    intro j tr hrun
    simp [workerExec] at hrun
  | succ n ih =>
    intro j tr hrun
    unfold workerExec at hrun
    by_cases ho : observe j
    · rw [if_pos ho] at hrun
      obtain rfl : [WEvent.wgDone] = tr := by simpa using hrun
      rfl
    · rw [if_neg (by simp [ho])] at hrun
      match hh : h j with
      | none =>
        rw [hh] at hrun
        obtain rfl : [WEvent.invoke j, WEvent.wgDone, WEvent.handlerPanic] = tr := by
          simpa using hrun
        simp [List.count_cons]
      | some false =>
        rw [hh] at hrun
        obtain rfl : [WEvent.invoke j, WEvent.wgDone] = tr := by simpa using hrun
        simp [List.count_cons]
      | some true =>
        rw [hh] at hrun
        rw [Option.map_eq_some'] at hrun
        obtain ⟨tr', h1, rfl⟩ := hrun
        have := ih (j + 1) tr' h1
        simp [List.count_cons, this]

/-- No panic event appears in a worker trace when the handler never
panics. -/
theorem workerExec_no_panic (observe : Nat → Bool) (h : Nat → Option Bool)
    (hok : ∀ k, h k ≠ none) :
    ∀ fuel j tr, workerExec observe h j fuel = some tr →
      WEvent.handlerPanic ∉ tr := by
  intro fuel
  induction fuel with
  | zero =>
    intro j tr hrun
    simp [workerExec] at hrun
  | succ n ih =>
    intro j tr hrun
    unfold workerExec at hrun
    by_cases ho : observe j
    · rw [if_pos ho] at hrun
      obtain rfl : [WEvent.wgDone] = tr := by simpa using hrun
      simp
    · rw [if_neg (by simp [ho])] at hrun
      match hh : h j with
      | none => exact absurd hh (hok j)
      | some false =>
        rw [hh] at hrun
        obtain rfl : [WEvent.invoke j, WEvent.wgDone] = tr := by simpa using hrun
        simp
      | some true =>
        rw [hh] at hrun
        rw [Option.map_eq_some'] at hrun
        obtain ⟨tr', h1, rfl⟩ := hrun
        have := ih (j + 1) tr' h1
        simp [this]

/-- Every invocation recorded from start iteration j happens at an
iteration m ≥ j whose poll, and every poll between j and m, found the
signal unfired. -/
theorem workerExec_invoke_bound (observe : Nat → Bool) (h : Nat → Option Bool) :
    ∀ fuel j tr, workerExec observe h j fuel = some tr →
      ∀ m, WEvent.invoke m ∈ tr →
        j ≤ m ∧ ∀ k, j ≤ k → k ≤ m → observe k = false := by
  intro fuel
  induction fuel with
  | zero =>
    intro j tr hrun
    simp [workerExec] at hrun
  | succ n ih =>
    intro j tr hrun m hm
    unfold workerExec at hrun
    by_cases ho : observe j
    · rw [if_pos ho] at hrun
      obtain rfl : [WEvent.wgDone] = tr := by simpa using hrun
      simp at hm
    · rw [if_neg (by simp [ho])] at hrun
      have hofalse : observe j = false := by simpa using ho
      match hh : h j with
      | none =>
        rw [hh] at hrun
        obtain rfl : [WEvent.invoke j, WEvent.wgDone, WEvent.handlerPanic] = tr := by
          simpa using hrun
        simp at hm
        obtain rfl : m = j := hm
        exact ⟨Nat.le_refl m, fun k h1 h2 => by
          obtain rfl : k = m := Nat.le_antisymm h2 h1
          exact hofalse⟩
      | some false =>
        rw [hh] at hrun
        obtain rfl : [WEvent.invoke j, WEvent.wgDone] = tr := by simpa using hrun
        simp at hm
        obtain rfl : m = j := hm
        exact ⟨Nat.le_refl m, fun k h1 h2 => by
          obtain rfl : k = m := Nat.le_antisymm h2 h1
          exact hofalse⟩
      | some true =>
        rw [hh] at hrun
        rw [Option.map_eq_some'] at hrun
        obtain ⟨tr', h1, rfl⟩ := hrun
        rcases List.mem_cons.mp hm with heq | hmem
        · obtain rfl : m = j := by simpa using heq
          exact ⟨Nat.le_refl m, fun k h1 h2 => by
            obtain rfl : k = m := Nat.le_antisymm h2 h1
            exact hofalse⟩
        · obtain ⟨hle, hall⟩ := ih (j + 1) tr' h1 m hmem
          refine ⟨by omega, fun k hk1 hk2 => ?_⟩
          rcases Nat.eq_or_lt_of_le hk1 with rfl | hlt
          · exact hofalse
          · exact hall k (by omega) hk2

/-- C3: each worker's loop first polls the cancellation signal without
blocking and exits immediately when it is signaled; otherwise it invokes
the WorkFunction (which receives the abort signal), exits when the function
returns false, and repeats the loop from the poll when it returns true. -/
theorem worker_loop_structure (observe : Nat → Bool) (h : Nat → Option Bool)
    (j fuel : Nat) :
    (observe j = true →
      workerExec observe h j (fuel + 1) = some [WEvent.wgDone]) ∧
    (observe j = false → h j = some false →
      workerExec observe h j (fuel + 1)
        = some [WEvent.invoke j, WEvent.wgDone]) ∧
    (observe j = false → h j = some true →
      workerExec observe h j (fuel + 1)
        = (workerExec observe h (j + 1) fuel).map
            (fun tr => WEvent.invoke j :: tr)) := by
  refine ⟨fun ho => ?_, fun ho hh => ?_, fun ho hh => ?_⟩
  · unfold workerExec
    rw [if_pos ho]
  · unfold workerExec
    rw [if_neg (by simp [ho]), hh]
  · show workerExec observe h j (fuel + 1)
        = (workerExec observe h (j + 1) fuel).map
            (fun tr => WEvent.invoke j :: tr)
    conv_lhs => rw [workerExec]
    rw [if_neg (by simp [ho]), hh]

/-- Witness for C3: the three step behaviours at concrete inputs. -/
theorem worker_loop_structure_witness :
    workerExec (fun _ => true) (fun _ => some true) 0 1
        = some [WEvent.wgDone] ∧
      workerExec (fun _ => false) (fun _ => some false) 0 1
        = some [WEvent.invoke 0, WEvent.wgDone] ∧
      workerExec (fun _ => false) (fun _ => some true) 0 1
        = (workerExec (fun _ => false) (fun _ => some true) 1 0).map
            (fun tr => WEvent.invoke 0 :: tr) :=
  ⟨(worker_loop_structure (fun _ => true) (fun _ => some true) 0 0).1 rfl,
   (worker_loop_structure (fun _ => false) (fun _ => some false) 0 0).2.1 rfl rfl,
   (worker_loop_structure (fun _ => false) (fun _ => some true) 0 0).2.2 rfl rfl⟩

/-- C5: once a worker's poll at iteration jsig observes the fired signal
(after `Cancel`, every poll observes it, since a select on a closed channel
always takes the receive branch), the worker makes no invocation at or
after iteration jsig: every invocation in its trace happened at an earlier
iteration whose poll found the signal unfired.  In-flight invocations are
not interrupted: the trace keeps every invocation begun before the
signal. -/
theorem no_invocation_after_signal (observe : Nat → Bool)
    (h : Nat → Option Bool) (jsig fuel : Nat) (tr : List WEvent)
    (hsig : observe jsig = true)
    (hrun : workerExec observe h 0 fuel = some tr) :
    ∀ m, WEvent.invoke m ∈ tr → m < jsig ∧ observe m = false := by
  intro m hm
  obtain ⟨-, hall⟩ := workerExec_invoke_bound observe h fuel 0 tr hrun m hm
  have hmlt : m < jsig := by
    by_contra hge
    push_neg at hge
    have := hall jsig (Nat.zero_le _) hge
    rw [this] at hsig
    exact Bool.false_ne_true hsig
  exact ⟨hmlt, hall m (Nat.zero_le _) (Nat.le_refl m)⟩

/-- Witness for C5: a worker whose handler always reports more work, with
the signal observed from iteration 1 on, exits after exactly the one
invocation made at iteration 0, before the signal. -/
theorem no_invocation_after_signal_witness :
    workerExec (fun k => decide (1 ≤ k)) (fun _ => some true) 0 2
        = some [WEvent.invoke 0, WEvent.wgDone] ∧
      ((0 : Nat) < 1 ∧ (fun k => decide (1 ≤ k)) 0 = false) :=
  ⟨by decide,
   no_invocation_after_signal (fun k => decide (1 ≤ k)) (fun _ => some true)
     1 2 [WEvent.invoke 0, WEvent.wgDone] (by decide) (by decide) 0
     (by decide)⟩

/-- C8: a worker releases the wait barrier exactly once however its
execution ends — signal observed, WorkFunction done, or WorkFunction
panicking — because the decrement is a deferred call scoped to the
goroutine: every terminating worker trace contains exactly one `wgDone`. -/
theorem worker_releases_barrier_once (observe : Nat → Bool)
    (h : Nat → Option Bool) (j fuel : Nat) (tr : List WEvent)
    (hrun : workerExec observe h j fuel = some tr) :
    tr.count WEvent.wgDone = 1 ∧ WEvent.wgDone ∈ tr := by
  have hc := workerExec_done_count observe h fuel j tr hrun
  refine ⟨hc, ?_⟩
  have : 0 < tr.count WEvent.wgDone := by omega
  exact List.count_pos_iff.mp this

/-- Witness for C8: a worker whose handler panics on its first call still
records exactly one barrier release. -/
theorem worker_releases_barrier_once_witness :
    workerExec (fun _ => false) (fun _ => none) 0 1
        = some [WEvent.invoke 0, WEvent.wgDone, WEvent.handlerPanic] ∧
      ([WEvent.invoke 0, WEvent.wgDone, WEvent.handlerPanic].count
          WEvent.wgDone = 1 ∧
        WEvent.wgDone
          ∈ [WEvent.invoke 0, WEvent.wgDone, WEvent.handlerPanic]) :=
  ⟨by decide,
   worker_releases_barrier_once (fun _ => false) (fun _ => none) 0 1
     [WEvent.invoke 0, WEvent.wgDone, WEvent.handlerPanic] (by decide)⟩

/-- C6: calling `Cancel` on a pool whose abort signal is already signaled
faults (close of closed channel) instead of being a no-op; in particular a
second `Cancel` after any successful `Cancel` faults. -/
theorem cancel_twice_faults (p q : WorkPool)
    (h : WorkPool.Cancel p = Except.ok q) :
    q.abort = some true ∧
      WorkPool.Cancel q = Except.error GoPanic.closeClosed := by
  unfold WorkPool.Cancel at h ⊢
  match hp : p.abort with
  | none => rw [hp] at h; exact absurd h (by simp)
  | some true => rw [hp] at h; exact absurd h (by simp)
  | some false =>
    rw [hp] at h
    have hq : q = { p with abort := some true } := by
      simpa using h.symm
    subst hq
    exact ⟨rfl, rfl⟩

/-- Witness for C6 at a concrete pool: `Cancel` on `New 0` succeeds and a
second `Cancel` on the resulting pool faults with a close-of-closed panic. -/
theorem cancel_twice_faults_witness :
    ({ Workers := 0, abort := some true, hasClose := false } : WorkPool).abort
        = some true ∧
      WorkPool.Cancel { Workers := 0, abort := some true, hasClose := false }
        = Except.error GoPanic.closeClosed :=
  cancel_twice_faults (New 0)
    { Workers := 0, abort := some true, hasClose := false } rfl

/-- C7: calling `Cancel` on a pool whose abort signal was never allocated
(a nil channel, as in the zero-initialized struct before any `Run` has
lazily allocated it) faults with a close-of-nil panic. -/
theorem cancel_unallocated_faults (p : WorkPool) (h : p.abort = none) :
    WorkPool.Cancel p = Except.error GoPanic.closeNil := by
  unfold WorkPool.Cancel
  rw [h]

/-- Witness for C7: the zero-initialized pool has a nil abort channel and
`Cancel` on it faults. -/
theorem cancel_unallocated_faults_witness :
    WorkPool.Cancel zeroValue = Except.error GoPanic.closeNil :=
  cancel_unallocated_faults zeroValue rfl

/-- C9: pools built by `New` or `NewWithClose` have an allocated, open abort
channel from construction, so `Cancel` before any `Run` succeeds on them;
the close-of-nil fault arises only for a pool built as a zero value without
the constructors. -/
theorem constructors_allocate_abort (n : Int) :
    (New n).abort = some false ∧
      (NewWithClose n).abort = some false ∧
      WorkPool.Cancel (New n)
        = Except.ok { Workers := n, abort := some true, hasClose := false } ∧
      WorkPool.Cancel (NewWithClose n)
        = Except.ok { Workers := n, abort := some true, hasClose := true } ∧
      WorkPool.Cancel zeroValue = Except.error GoPanic.closeNil :=
  ⟨rfl, rfl, rfl, rfl, rfl⟩

/-- Witness for C9 at `n = 3`. -/
theorem constructors_allocate_abort_witness :
    (New 3).abort = some false ∧
      (NewWithClose 3).abort = some false ∧
      WorkPool.Cancel (New 3)
        = Except.ok { Workers := 3, abort := some true, hasClose := false } ∧
      WorkPool.Cancel (NewWithClose 3)
        = Except.ok { Workers := 3, abort := some true, hasClose := true } ∧
      WorkPool.Cancel zeroValue = Except.error GoPanic.closeNil :=
  constructors_allocate_abort 3

/-- `ensureAbort` only touches the abort field. -/
theorem ensureAbort_Workers (p : WorkPool) :
    (ensureAbort p).Workers = p.Workers := by
  unfold ensureAbort
  split <;> rfl

/-- `ensureAbort` only touches the abort field. -/
theorem ensureAbort_hasClose (p : WorkPool) :
    (ensureAbort p).hasClose = p.hasClose := by
  unfold ensureAbort
  split <;> rfl

/-- The deferred-Close trace is unaffected by the lazy abort allocation. -/
theorem closeTrace_ensureAbort (p : WorkPool) :
    closeTrace (ensureAbort p) = closeTrace p := by
  unfold closeTrace
  rw [ensureAbort_hasClose]

/-- A non-negative `wg.Add` succeeds. -/
theorem wgAdd_ok (w : Int) (hw : 0 ≤ w) : wgAdd 0 w = Except.ok (0 + w) := by
  unfold wgAdd
  rw [if_neg (by omega)]

/-- A negative `wg.Add` from counter 0 panics. -/
theorem wgAdd_neg (w : Int) (hw : w < 0) :
    wgAdd 0 w = Except.error GoPanic.negativeWaitGroup := by
  unfold wgAdd
  rw [if_pos (by omega)]

/-- Pointwise success of an `Option`-valued `mapM`, carrying a relation
between inputs and outputs through to the result list. -/
theorem mapM_eq_some_of_forall {α β : Type} (f : α → Option β)
    (P : α → β → Prop) :
    ∀ l : List α, (∀ x ∈ l, ∃ y, f x = some y ∧ P x y) →
      ∃ l', l.mapM f = some l' ∧ l'.length = l.length ∧
        ∀ i (hi : i < l.length) (hi2 : i < l'.length),
          P (l.get ⟨i, hi⟩) (l'.get ⟨i, hi2⟩) := by
  intro l
  induction l with
  | nil =>
    intro _
    exact ⟨[], rfl, rfl, fun i hi _ => absurd hi (Nat.not_lt_zero i)⟩
  | cons a l ih =>
    intro hf
    obtain ⟨y, hy, hPy⟩ := hf a (List.mem_cons_self a l)
    obtain ⟨l', h1, hlen, hP⟩ := ih (fun x hx => hf x (List.mem_cons_of_mem a hx))
    refine ⟨y :: l', ?_, by simp [hlen], ?_⟩
    · rw [List.mapM_cons, hy, h1]
      rfl
    · intro i hi hi2
      match i with
      | 0 => exact hPy
      | i + 1 =>
        exact hP i (Nat.lt_of_succ_lt_succ hi) (Nat.lt_of_succ_lt_succ hi2)

/-- Every element of a successful `mapM` result comes from some input. -/
theorem mapM_eq_some_forall {α β : Type} (f : α → Option β) :
    ∀ (l : List α) (l' : List β), l.mapM f = some l' →
      ∀ y ∈ l', ∃ x ∈ l, f x = some y := by
  intro l
  induction l with
  | nil =>
    intro l' hml y hy
    have h0 : some ([] : List β) = some l' := hml
    obtain rfl : ([] : List β) = l' := by simpa using h0
    simp at hy
  | cons a l ih =>
    intro l' hml y hy
    rw [List.mapM_cons] at hml
    match hfa : f a with
    | none =>
      rw [hfa] at hml
      have h0 : (none : Option (List β)) = some l' := hml
      simp at h0
    | some b =>
      rw [hfa] at hml
      match hrest : l.mapM f with
      | none =>
        rw [hrest] at hml
        have h0 : (none : Option (List β)) = some l' := hml
        simp at h0
      | some bs =>
        rw [hrest] at hml
        have h0 : some (b :: bs) = some l' := hml
        obtain rfl : b :: bs = l' := by simpa using h0
        rcases List.mem_cons.mp hy with rfl | hmem
        · exact ⟨a, List.mem_cons_self a l, hfa⟩
        · obtain ⟨x, hx, hfx⟩ := ih bs hrest y hmem
          exact ⟨x, List.mem_cons_of_mem a hx, hfx⟩

/-- Every event of the merged worker trace is a tagged worker event. -/
theorem tagWorkers_mem (trs : List (List WEvent)) (g : GEvent)
    (hg : g ∈ tagWorkers trs) : ∃ i e, g = GEvent.worker i e := by
  unfold tagWorkers at hg
  rw [List.mem_flatten] at hg
  obtain ⟨l, hl, hgl⟩ := hg
  rw [List.mem_map] at hl
  obtain ⟨it, _, rfl⟩ := hl
  rw [List.mem_map] at hgl
  obtain ⟨e, _, rfl⟩ := hgl
  exact ⟨it.1, e, rfl⟩

/-- A worker whose handler answers true for its first K calls and false on
call K finishes with exactly K + 1 invocations when the signal never
fires. -/
theorem workerExec_runs_to_false (h : Nat → Option Bool) :
    ∀ K j, (∀ k, k < K → h (j + k) = some true) → h (j + K) = some false →
      ∃ tr, workerExec (fun _ => false) h j (K + 1) = some tr ∧
        invokeCount tr = K + 1 ∧ WEvent.handlerPanic ∉ tr := by
  intro K
  induction K with
  | zero =>
    intro j _ hK
    have hj : h j = some false := by simpa using hK
    refine ⟨[WEvent.invoke j, WEvent.wgDone], ?_, rfl, by simp⟩
    unfold workerExec
    rw [if_neg (by simp), hj]
  | succ K ih =>
    intro j hk hK
    have h0 : h j = some true := by simpa using hk 0 (Nat.succ_pos K)
    obtain ⟨tr, htr, hcnt, hnp⟩ := ih (j + 1)
      (fun k hk2 => by
        have hx := hk (k + 1) (by omega)
        have he : j + (k + 1) = j + 1 + k := by omega
        rwa [he] at hx)
      (by
        have he : j + (K + 1) = j + 1 + K := by omega
        rwa [he] at hK)
    refine ⟨WEvent.invoke j :: tr, ?_, ?_, by simpa using hnp⟩
    · show workerExec (fun _ => false) h j (K + 1 + 1)
          = some (WEvent.invoke j :: tr)
      conv_lhs => rw [workerExec]
      rw [if_neg (by simp), h0, htr]
      rfl
    · unfold invokeCount at hcnt ⊢
      simp [List.countP_cons, hcnt]

/-- C1: with no cancellation, when worker i's WorkFunction answers true on
its first `K i` calls and false on call `K i`, `Run` returns once every
worker's WorkFunction has returned false; each worker is invoked exactly
`K i + 1` times (so at least once), and the total invocation count is the
sum of the per-worker counts — with `workerCount = 5` and an always-false
WorkFunction, exactly 5 invocations, one per worker (see the witness). -/
theorem run_invokes_until_false (p : WorkPool) (h : Nat → Nat → Option Bool)
    (K : Nat → Nat) (hW : 0 ≤ p.Workers)
    (hT : ∀ i, i < p.Workers.toNat →
      (∀ k, k < K i → h i k = some true) ∧ h i (K i) = some false) :
    ∃ fuel o, WorkPool.Run p h (fun _ _ => false) fuel = some o ∧
      o.workerTraces.length = p.Workers.toNat ∧
      (∀ i (hi : i < o.workerTraces.length),
        invokeCount (o.workerTraces.get ⟨i, hi⟩) = K i + 1) ∧
      totalInvocations o
        = ((List.range p.Workers.toNat).map (fun i => K i + 1)).sum := by
  have hFi : ∀ i, i < p.Workers.toNat →
      K i + 1 ≤ ((List.range p.Workers.toNat).map (fun i => K i + 1)).sum + 1 := by
    intro i hi
    have hmem : K i + 1 ∈ (List.range p.Workers.toNat).map (fun i => K i + 1) :=
      List.mem_map.mpr ⟨i, List.mem_range.mpr hi, rfl⟩
    have hle := List.single_le_sum (fun x _ => Nat.zero_le x) _ hmem
    omega
  obtain ⟨trs, hmapm, hlen, hP⟩ :=
    mapM_eq_some_of_forall
      (fun i => workerExec ((fun _ _ => false) i) (h i) 0
        (((List.range p.Workers.toNat).map (fun i => K i + 1)).sum + 1))
      (fun i tr => invokeCount tr = K i + 1 ∧ WEvent.handlerPanic ∉ tr)
      (List.range p.Workers.toNat)
      (fun i hi => by
        have hi2 : i < p.Workers.toNat := List.mem_range.mp hi
        obtain ⟨ht, hf⟩ := hT i hi2
        obtain ⟨tr, htr, hcnt, hnp⟩ :=
          workerExec_runs_to_false (h i) (K i) 0
            (fun k hk => by simpa using ht k hk)
            (by simpa using hf)
        exact ⟨tr,
          workerExec_mono _ _ (K i + 1)
            (((List.range p.Workers.toNat).map (fun i => K i + 1)).sum + 1)
            0 tr (hFi i hi2) htr,
          hcnt, hnp⟩)
  have hidxP : ∀ i (hi : i < trs.length),
      invokeCount (trs.get ⟨i, hi⟩) = K i + 1 ∧
        WEvent.handlerPanic ∉ trs.get ⟨i, hi⟩ := by
    intro i hi
    have hi1 : i < (List.range p.Workers.toNat).length := by
      rw [← hlen]; exact hi
    have h3 := hP i hi1 hi
    have hget : (List.range p.Workers.toNat).get ⟨i, hi1⟩ = i := by simp
    rw [hget] at h3
    exact h3
  have hnopanic : ∀ tr ∈ trs, WEvent.handlerPanic ∉ tr := by
    intro tr htr
    obtain ⟨idx, hidx⟩ := List.mem_iff_get.mp htr
    have h4 := (hidxP idx.1 idx.isLt).2
    rw [hidx] at h4
    exact h4
  have hany : trs.any (fun tr => tr.contains WEvent.handlerPanic) = false := by
    rw [List.any_eq_false]
    intro tr htr
    simpa using hnopanic tr htr
  refine ⟨((List.range p.Workers.toNat).map (fun i => K i + 1)).sum + 1,
    ⟨ensureAbort p, tagWorkers trs ++ closeTrace (ensureAbort p), trs⟩,
    ?_, ?_, ?_, ?_⟩
  · unfold WorkPool.Run
    rw [ensureAbort_Workers, wgAdd_ok p.Workers hW]
    show ((List.range p.Workers.toNat).mapM
        (fun i => workerExec ((fun _ _ => false) i) (h i) 0
          (((List.range p.Workers.toNat).map (fun i => K i + 1)).sum + 1))).map
        _ = _
    rw [hmapm]
    simp only [Option.map_some']
    rw [if_neg (by rw [hany]; simp)]
  · show trs.length = p.Workers.toNat
    rw [hlen, List.length_range]
  · intro i hi
    exact (hidxP i hi).1
  · show (trs.map invokeCount).sum = _
    have hmap : trs.map invokeCount
        = (List.range p.Workers.toNat).map (fun i => K i + 1) := by
      apply List.ext_get
      · simp [hlen]
      · intro i h1 h2
        have hi : i < trs.length := by simpa using h1
        have hr : i < p.Workers.toNat := by simpa using h2
        have hgl : (trs.map invokeCount).get ⟨i, h1⟩
            = invokeCount (trs.get ⟨i, hi⟩) := by
          simp
        have hgr : ((List.range p.Workers.toNat).map
            (fun i => K i + 1)).get ⟨i, h2⟩ = K i + 1 := by
          simp
        rw [hgl, hgr, (hidxP i hi).1]
    rw [hmap]

/-- Witness for C1, Scenario A: 5 workers, WorkFunction always returns
false: `Run` returns with 5 workers each invoked once, 5 invocations
total. -/
theorem run_invokes_until_false_witness :
    ∃ fuel o, WorkPool.Run (New 5) (fun _ _ => some false) (fun _ _ => false)
        fuel = some o ∧
      o.workerTraces.length = 5 ∧
      totalInvocations o = 5 := by
  obtain ⟨fuel, o, h1, h2, _, h4⟩ :=
    run_invokes_until_false (New 5) (fun _ _ => some false) (fun _ => 0)
      (by decide)
      (fun i _ => ⟨fun k hk => absurd hk (Nat.not_lt_zero k), rfl⟩)
  refine ⟨fuel, o, h1, h2, ?_⟩
  rw [h4]
  decide

/-- C2: on any run with a configured finalizer, any cancellation schedule
and non-panicking handlers, the finalizer event appears exactly once in
the trace, strictly after every worker event (all workers have exited:
each worker trace contains its barrier release), and it is the last thing
before `Run` returns. -/
theorem close_runs_once_after_workers (p : WorkPool)
    (h : Nat → Nat → Option Bool) (observe : Nat → Nat → Bool) (fuel : Nat)
    (o : RunOutcome) (hW : 0 ≤ p.Workers) (hc : p.hasClose = true)
    (hok : ∀ i k, h i k ≠ none)
    (hr : WorkPool.Run p h observe fuel = some o) :
    o.trace = tagWorkers o.workerTraces ++ [GEvent.closeCall] ∧
      o.trace.count GEvent.closeCall = 1 ∧
      ∀ tr ∈ o.workerTraces, WEvent.wgDone ∈ tr := by
  unfold WorkPool.Run at hr
  rw [ensureAbort_Workers, wgAdd_ok p.Workers hW] at hr
  have hr2 : ((List.range p.Workers.toNat).mapM
      (fun i => workerExec (observe i) (h i) 0 fuel)).map
      (fun trs =>
        if trs.any (fun tr => tr.contains WEvent.handlerPanic) then
          (⟨ensureAbort p, tagWorkers trs ++ [GEvent.crash], trs⟩ : RunOutcome)
        else
          ⟨ensureAbort p, tagWorkers trs ++ closeTrace (ensureAbort p), trs⟩)
      = some o := hr
  obtain ⟨trs, hmapm, ho⟩ := Option.map_eq_some'.mp hr2
  have hnopanic : ∀ tr ∈ trs, WEvent.handlerPanic ∉ tr := by
    intro tr htr
    obtain ⟨i, _, hfi⟩ := mapM_eq_some_forall _ _ trs hmapm tr htr
    exact workerExec_no_panic (observe i) (h i) (fun k => hok i k) fuel 0 tr hfi
  have hany : trs.any (fun tr => tr.contains WEvent.handlerPanic) = false := by
    rw [List.any_eq_false]
    intro tr htr
    simpa using hnopanic tr htr
  rw [if_neg (by rw [hany]; simp)] at ho
  subst ho
  have hclose : closeTrace (ensureAbort p) = [GEvent.closeCall] := by
    rw [closeTrace_ensureAbort]
    unfold closeTrace
    rw [hc]
    rfl
  refine ⟨by rw [hclose], ?_, ?_⟩
  · show (tagWorkers trs ++ closeTrace (ensureAbort p)).count GEvent.closeCall = 1
    rw [hclose, List.count_append]
    have hzero : (tagWorkers trs).count GEvent.closeCall = 0 := by
      apply List.count_eq_zero.mpr
      intro hmem
      obtain ⟨i, e, he⟩ := tagWorkers_mem trs _ hmem
      exact GEvent.noConfusion he
    rw [hzero]
    rfl
  · intro tr htr
    obtain ⟨i, _, hfi⟩ := mapM_eq_some_forall _ _ trs hmapm tr htr
    have hcnt := workerExec_done_count (observe i) (h i) fuel 0 tr hfi
    have hpos : 0 < tr.count WEvent.wgDone := by omega
    exact List.count_pos_iff.mp hpos

/-- Witness for C2 at a concrete run: one worker, finalizer configured,
handler immediately false. -/
theorem close_runs_once_after_workers_witness :
    WorkPool.Run (NewWithClose 1) (fun _ _ => some false) (fun _ _ => false) 1
        = some ⟨NewWithClose 1,
            [GEvent.worker 0 (WEvent.invoke 0), GEvent.worker 0 WEvent.wgDone,
              GEvent.closeCall],
            [[WEvent.invoke 0, WEvent.wgDone]]⟩ ∧
      ([GEvent.worker 0 (WEvent.invoke 0), GEvent.worker 0 WEvent.wgDone,
          GEvent.closeCall] : List GEvent).count GEvent.closeCall = 1 := by
  have hrun : WorkPool.Run (NewWithClose 1) (fun _ _ => some false)
      (fun _ _ => false) 1
      = some ⟨NewWithClose 1,
          [GEvent.worker 0 (WEvent.invoke 0), GEvent.worker 0 WEvent.wgDone,
            GEvent.closeCall],
          [[WEvent.invoke 0, WEvent.wgDone]]⟩ := by decide
  have hmain := close_runs_once_after_workers (NewWithClose 1)
    (fun _ _ => some false) (fun _ _ => false) 1 _ (by decide) rfl
    (fun i k => by simp) hrun
  exact ⟨hrun, hmain.2.1⟩

/-- C4: with `Workers = 0`, `Run` returns with any fuel (the wait barrier
is immediately satisfied), no worker trace exists, the WorkFunction is
never invoked, and the finalizer trace still carries exactly one
finalizer call when one is configured. -/
theorem run_zero_workers (p : WorkPool) (h : Nat → Nat → Option Bool)
    (observe : Nat → Nat → Bool) (fuel : Nat) (h0 : p.Workers = 0) :
    WorkPool.Run p h observe fuel
        = some ⟨ensureAbort p, closeTrace p, []⟩ ∧
      totalInvocations ⟨ensureAbort p, closeTrace p, []⟩ = 0 ∧
      (p.hasClose = true →
        (closeTrace p).count GEvent.closeCall = 1) := by
  refine ⟨?_, rfl, ?_⟩
  · unfold WorkPool.Run
    rw [ensureAbort_Workers, h0, wgAdd_ok 0 (Int.le_refl 0)]
    show ((List.range (0 : Int).toNat).mapM
        (fun i => workerExec (observe i) (h i) 0 fuel)).map _ = _
    have hmapm : (List.range (0 : Int).toNat).mapM
        (fun i => workerExec (observe i) (h i) 0 fuel) = some [] := rfl
    rw [hmapm, Option.map_some']
    show some (if ([] : List (List WEvent)).any
        (fun tr => tr.contains WEvent.handlerPanic) then _ else _) = _
    rw [if_neg (by simp)]
    show some (⟨ensureAbort p, tagWorkers [] ++ closeTrace (ensureAbort p),
        []⟩ : RunOutcome) = _
    rw [closeTrace_ensureAbort]
    rfl
  · intro hc
    unfold closeTrace
    rw [hc]
    rfl

/-- Witness for C4: zero workers with a configured finalizer. -/
theorem run_zero_workers_witness :
    WorkPool.Run (NewWithClose 0) (fun _ _ => some true) (fun _ _ => false) 0
        = some ⟨ensureAbort (NewWithClose 0), closeTrace (NewWithClose 0), []⟩ ∧
      (closeTrace (NewWithClose 0)).count GEvent.closeCall = 1 := by
  obtain ⟨h1, _, h3⟩ := run_zero_workers (NewWithClose 0)
    (fun _ _ => some true) (fun _ _ => false) 0 rfl
  exact ⟨h1, h3 rfl⟩

/-- C10: with negative `Workers`, `Run` faults in `wg.Add` before spawning
any worker or invoking the WorkFunction (no worker trace, no invocation in
the trace), while the deferred finalizer still produces its one call
during the unwind; and for `Workers ≥ 0` — the spec's precondition — the
negative-counter panic is unreachable in any outcome. -/
theorem negative_workers_fault (p : WorkPool) (h : Nat → Nat → Option Bool)
    (observe : Nat → Nat → Bool) (fuel : Nat) :
    (p.Workers < 0 →
      WorkPool.Run p h observe fuel
          = some ⟨ensureAbort p,
              closeTrace p ++ [GEvent.panicOut GoPanic.negativeWaitGroup],
              []⟩ ∧
        (p.hasClose = true →
          (closeTrace p
              ++ [GEvent.panicOut GoPanic.negativeWaitGroup]).count
              GEvent.closeCall = 1)) ∧
    (0 ≤ p.Workers → ∀ o, WorkPool.Run p h observe fuel = some o →
      GEvent.panicOut GoPanic.negativeWaitGroup ∉ o.trace) := by
  constructor
  · intro hneg
    constructor
    · unfold WorkPool.Run
      rw [ensureAbort_Workers, wgAdd_neg p.Workers hneg]
      show some (⟨ensureAbort p,
          closeTrace (ensureAbort p)
            ++ [GEvent.panicOut GoPanic.negativeWaitGroup], []⟩ : RunOutcome)
          = _
      rw [closeTrace_ensureAbort]
    · intro hc
      unfold closeTrace
      rw [hc, List.count_append]
      rfl
  · intro hW o hr
    unfold WorkPool.Run at hr
    rw [ensureAbort_Workers, wgAdd_ok p.Workers hW] at hr
    have hr2 : ((List.range p.Workers.toNat).mapM
        (fun i => workerExec (observe i) (h i) 0 fuel)).map
        (fun trs =>
          if trs.any (fun tr => tr.contains WEvent.handlerPanic) then
            (⟨ensureAbort p, tagWorkers trs ++ [GEvent.crash], trs⟩ :
              RunOutcome)
          else
            ⟨ensureAbort p, tagWorkers trs ++ closeTrace (ensureAbort p),
              trs⟩)
        = some o := hr
    obtain ⟨trs, _, ho⟩ := Option.map_eq_some'.mp hr2
    subst ho
    by_cases hcase : trs.any (fun tr => tr.contains WEvent.handlerPanic) = true
    · rw [if_pos hcase]
      intro hmem
      rcases List.mem_append.mp hmem with hm | hm
      · obtain ⟨i, e, he⟩ := tagWorkers_mem trs _ hm
        exact GEvent.noConfusion he
      · simp at hm
    · rw [if_neg hcase]
      intro hmem
      rcases List.mem_append.mp hmem with hm | hm
      · obtain ⟨i, e, he⟩ := tagWorkers_mem trs _ hm
        exact GEvent.noConfusion he
      · rw [closeTrace_ensureAbort] at hm
        unfold closeTrace at hm
        split at hm <;> simp at hm

/-- Witness for C10: a pool with `Workers = -1` and a finalizer faults with
the negative-wait-group panic after the one finalizer call; and a concrete
non-negative run has no such panic in its trace. -/
theorem negative_workers_fault_witness :
    (WorkPool.Run (NewWithClose (-1)) (fun _ _ => some true)
          (fun _ _ => false) 3
        = some ⟨ensureAbort (NewWithClose (-1)),
            closeTrace (NewWithClose (-1))
              ++ [GEvent.panicOut GoPanic.negativeWaitGroup], []⟩ ∧
      (closeTrace (NewWithClose (-1))
          ++ [GEvent.panicOut GoPanic.negativeWaitGroup]).count
          GEvent.closeCall = 1) ∧
    GEvent.panicOut GoPanic.negativeWaitGroup
      ∉ (⟨New 1, [GEvent.worker 0 (WEvent.invoke 0),
            GEvent.worker 0 WEvent.wgDone], [[WEvent.invoke 0, WEvent.wgDone]]⟩ :
          RunOutcome).trace := by
  constructor
  · obtain ⟨h1, -⟩ := negative_workers_fault (NewWithClose (-1))
      (fun _ _ => some true) (fun _ _ => false) 3
    obtain ⟨ha, hb⟩ := h1 (by decide)
    exact ⟨ha, hb rfl⟩
  · obtain ⟨-, h2⟩ := negative_workers_fault (New 1)
      (fun _ _ => some false) (fun _ _ => false) 1
    exact h2 (by decide)
      ⟨New 1, [GEvent.worker 0 (WEvent.invoke 0),
        GEvent.worker 0 WEvent.wgDone], [[WEvent.invoke 0, WEvent.wgDone]]⟩
      (by decide)

end Workpool
